import Mathlib

/-!
Shallow embedding of `src/Checking_Shortest_Path/graph.hpp`.

The C++ class `Graph<T>` stores `std::vector<std::unordered_map<int, T>> adjList`
and `int numVertices`.  Every constructor establishes
`numVertices == adjList.size()` and no member function changes either field's
length, so the embedding stores only the adjacency list and derives the vertex
count from its length.  An `unordered_map<int, T>` is embedded as an
association list with at most one entry per key; `std::unordered_map::insert`
does nothing when the key is already present, which `mapInsert` mirrors.
Checked accesses (`std::vector::at`, `std::unordered_map::at`), which throw
`std::out_of_range`, are embedded as `Option`/`Except` results; a negative
`int` index converts to a huge `size_t`, hence is out of range, which `atI?`
mirrors.  The two `while (!queue.empty())` loops are embedded with explicit
fuel and a distinguished out-of-fuel outcome, so that non-termination of the
C++ loop is observable as `outOfFuel` for every fuel value.
-/

namespace CheckSP

/-- Checked access of a list at a `Nat` index, mirroring `std::vector::at`
on an in-range machine index: `none` means `std::out_of_range` is thrown. -/
def atN? {β : Type} (l : List β) (n : Nat) : Option β := l[n]?

/-- Checked access at a C++ `int` index: a negative index converts to a huge
`size_t` and is therefore out of range. -/
def atI? {β : Type} (l : List β) (i : Int) : Option β :=
  if 0 ≤ i then atN? l i.toNat else none

/-- Membership test of an `unordered_map<int, T>` key (`contains`). -/
def mapContains {α : Type} (m : List (Int × α)) (j : Int) : Bool :=
  m.any (fun p => decide (p.1 = j))

/-- Lookup in an `unordered_map<int, T>` (`at`/`find`). -/
def mapFind? {α : Type} (m : List (Int × α)) (j : Int) : Option α :=
  (m.find? (fun p => decide (p.1 = j))).map Prod.snd

/-- The map operation used by `Graph::addEdge`: `std::unordered_map::insert`,
which inserts only when the key is absent and otherwise leaves the map
unchanged. -/
def mapInsert {α : Type} (m : List (Int × α)) (j : Int) (w : α) : List (Int × α) :=
  if mapContains m j then m else m ++ [(j, w)]

/-- The graph `Graph<T>`: per-vertex adjacency maps from destination vertex to
weight.  The vertex count is the length of the adjacency list (see the file
header for why `numVertices` is not stored separately). -/
structure Graph (α : Type) where
  adjList : List (List (Int × α))
deriving DecidableEq

/-- `Graph::size()`, i.e. `numVertices`. -/
def Graph.size {α : Type} (G : Graph α) : Nat := G.adjList.length

/-- The constructor `Graph(int N)`: empty graph with `N` vertices. -/
def mkGraph (α : Type) (N : Nat) : Graph α := ⟨List.replicate N []⟩

/-- Well-formedness: every destination key stored in an adjacency map is a
valid vertex index.  `addEdge` enforces this, so every graph built through the
public interface satisfies it. -/
def Graph.WF {α : Type} (G : Graph α) : Prop :=
  ∀ m ∈ G.adjList, ∀ p ∈ m, 0 ≤ p.1 ∧ p.1 < (G.size : Int)

variable {α : Type} [LinearOrder α] [Add α] [OfNat α 0]

/-- `Graph::addEdge(i, j, weight)` (graph.hpp lines 103-109): throws
`std::out_of_range("invalid vertex number")` when an index is out of range,
otherwise performs `adjList[i].insert({j, weight})`. -/
def Graph.addEdge (G : Graph α) (i j : Int) (w : α) : Except String (Graph α) :=
  if i < 0 ∨ (G.size : Int) ≤ i ∨ j < 0 ∨ (G.size : Int) ≤ j then
    .error "invalid vertex number"
  else
    .ok ⟨G.adjList.set i.toNat (mapInsert (G.adjList.getD i.toNat []) j w)⟩

/-- `Graph::removeEdge(i, j)` (graph.hpp lines 111-117): erases silently, a
no-op when an index is out of range. -/
def Graph.removeEdge (G : Graph α) (i j : Int) : Graph α :=
  if 0 ≤ i ∧ i < (G.size : Int) ∧ 0 ≤ j ∧ j < (G.size : Int) then
    ⟨G.adjList.set i.toNat ((G.adjList.getD i.toNat []).filter (fun p => decide (p.1 ≠ j)))⟩
  else G

/-- `Graph::isEdge(i, j)` (graph.hpp lines 119-125): `false` when an index is
out of range, otherwise `adjList.at(i).contains(j)`. -/
def Graph.isEdge (G : Graph α) (i j : Int) : Bool :=
  if 0 ≤ i ∧ i < (G.size : Int) ∧ 0 ≤ j ∧ j < (G.size : Int) then
    mapContains (G.adjList.getD i.toNat []) j
  else false

/-- `Graph::getEdgeWeight(i, j)` (graph.hpp lines 127-130):
`adjList.at(i).at(j)`, throwing `std::out_of_range` when `i` is not a valid
vector index or `j` is not a key of the map. -/
def Graph.getEdgeWeight (G : Graph α) (i j : Int) : Except String α :=
  match atI? G.adjList i with
  | none => .error "vector at"
  | some m =>
    match mapFind? m j with
    | some w => .ok w
    | none => .error "map at"

/-- The relevant pieces of `std::numeric_limits<T>` for a weight type `T`:
its maximum representable value, whether it has a native infinity, and that
native infinity value. -/
structure NumLimits (α : Type) where
  nmax : α
  hasInf : Bool
  infVal : α

/-- The free function `infinity<T>()` (graph.hpp lines 89-96): the native
infinity when `numeric_limits<T>::has_infinity`, otherwise
`numeric_limits<T>::max()`. -/
def NumLimits.infinity {α : Type} (L : NumLimits α) : α :=
  if L.hasInf then L.infVal else L.nmax

/-- `std::numeric_limits<int>` for the `int` instantiation of the template:
`INT_MAX`, no native infinity (`infinity()` then returns `T()`, i.e. 0,
but is never selected). -/
def intLimits : NumLimits Int := ⟨2147483647, false, 0⟩

/-- The per-edge test of `isSubgraph` (graph.hpp line 153):
`G.isEdge(v, n) == false || G.getEdgeWeight(v, n) != weight` returns `false`;
thanks to short-circuiting, `getEdgeWeight` is evaluated only when the edge
exists, so it never throws here. -/
def edgePresent (G : Graph α) (i j : Int) (w : α) : Bool :=
  G.isEdge i j &&
    (match G.getEdgeWeight i j with
     | .ok x => decide (x = w)
     | .error _ => false)

/-- `isSubgraph(H, G)` (graph.hpp lines 144-159). -/
def isSubgraph (H G : Graph α) : Bool :=
  if H.size > G.size then false
  else
    (List.range H.size).all (fun v =>
      (H.adjList.getD v []).all (fun p => edgePresent G (v : Int) p.1 p.2))

/-- Outcome of the inner `for` loop of `isTreePlusIsolated`: an out-of-range
`marked.at(nextVertex)` (throw), a revisit of a marked vertex (`return
false`), or completion with the updated marks and newly pushed vertices. -/
inductive MarkOut : Type where
  | err : MarkOut
  | revisit : MarkOut
  | ok (marked : List Bool) (pushed : List Nat) : MarkOut
deriving DecidableEq

/-- The body of `isTreePlusIsolated`'s edge loop (graph.hpp lines 170-177):
for each outgoing edge, fail on a marked target, otherwise mark it and push
it. -/
def markEdges : List (Int × α) → List Bool → List Nat → MarkOut
  | [], m, p => .ok m p
  | (j, _) :: rest, m, p =>
    match atI? m j with
    | none => .err
    | some true => .revisit
    | some false => markEdges rest (m.set j.toNat true) (p ++ [j.toNat])

/-- Outcome of the `while` loop of `isTreePlusIsolated`. -/
inductive TreeOut : Type where
  | outOfFuel : TreeOut
  | err : TreeOut
  | revisit : TreeOut
  | completed (marked : List Bool) : TreeOut
deriving DecidableEq

/-- The `while` loop of `isTreePlusIsolated` (graph.hpp lines 167-178),
with explicit fuel bounding the number of iterations. -/
def treeBFS (G : Graph α) : Nat → List Bool → List Nat → TreeOut
  | _, m, [] => .completed m
  | 0, _, _ :: _ => .outOfFuel
  | fuel + 1, m, u :: rest =>
    match atN? G.adjList u with
    | none => .err
    | some edges =>
      match markEdges edges m [] with
      | .err => .err
      | .revisit => .revisit
      | .ok m' pushed => treeBFS G fuel m' (rest ++ pushed)

/-- The final loop of `isTreePlusIsolated` (graph.hpp lines 179-183): every
unmarked vertex must have an empty adjacency. -/
def isolatedOk (G : Graph α) (m : List Bool) : Bool :=
  (List.range G.size).all (fun v => m.getD v true || (G.adjList.getD v []).isEmpty)

/-- `isTreePlusIsolated(G, root)` (graph.hpp lines 161-185).  The C++ function
first executes `marked.at(root) = true` which throws for an out-of-range root;
its `while` loop needs at most `2 * size + 1` iterations (proved below), so
that fuel makes the embedding total without changing the function's value. -/
def isTreePlusIsolated (G : Graph α) (root : Int) : Except String Bool :=
  if 0 ≤ root ∧ root < (G.size : Int) then
    match treeBFS G (2 * G.size + 1) ((List.replicate G.size false).set root.toNat true)
        [root.toNat] with
    | .completed m => .ok (isolatedOk G m)
    | .revisit => .ok false
    | .err => .error "vector at"
    | .outOfFuel => .error "fuel"
  else .error "vector at"

/-- Outcome of the `while` loop of `pathLengthsFromRoot`, with the fuel made
explicit: unlike the tree check, this loop need not terminate (a negative
cycle relaxes forever), so no fuel is right for every input. -/
inductive PathOut (α : Type) : Type where
  | outOfFuel : PathOut α
  | err : PathOut α
  | done (dist : List α) : PathOut α
deriving DecidableEq

/-- The body of `pathLengthsFromRoot`'s edge loop (graph.hpp lines 196-203):
relax each outgoing edge of `u`, pushing the target on improvement.  The
distance of `u` is re-read at each edge, as in the source (a self-loop can
change it mid-loop). -/
def relaxEdges (u : Nat) : List (Int × α) → List α → List Nat → Option (List α × List Nat)
  | [], dist, p => some (dist, p)
  | (j, w) :: rest, dist, p =>
    match atN? dist u, atI? dist j with
    | some du, some dj =>
      if dj > du + w then
        relaxEdges u rest (dist.set j.toNat (du + w)) (p ++ [j.toNat])
      else
        relaxEdges u rest dist p
    | _, _ => none

/-- The `while` loop of `pathLengthsFromRoot` (graph.hpp lines 193-204). -/
def pathBFS (G : Graph α) : Nat → List α → List Nat → PathOut α
  | _, dist, [] => .done dist
  | 0, _, _ :: _ => .outOfFuel
  | fuel + 1, dist, u :: rest =>
    match atN? G.adjList u with
    | none => .err
    | some edges =>
      match relaxEdges u edges dist [] with
      | none => .err
      | some (dist', pushed) => pathBFS G fuel dist' (rest ++ pushed)

/-- `pathLengthsFromRoot(tree, root)` (graph.hpp lines 187-206): distances are
initialised to `std::numeric_limits<T>::max()` (line 189; note: not to
`infinity<T>()`), the root's distance is set by `dist_to.at(root) = 0` which
throws for an out-of-range root, then the relaxing traversal runs. -/
def pathLengthsFromRoot (L : NumLimits α) (G : Graph α) (fuel : Nat) (root : Int) :
    PathOut α :=
  if 0 ≤ root ∧ root < (G.size : Int) then
    pathBFS G fuel ((List.replicate G.size L.nmax).set root.toNat 0) [root.toNat]
  else .err

/-- The per-vertex inner loop of `allEdgesRelaxed` (graph.hpp lines 214-220):
`ok false` models `return false`, `error` models a throwing `at`.  The test
short-circuits: the target's distance is read only when the source's distance
is not `infinity<T>()`. -/
def relaxVertex (L : NumLimits α) (d : List α) (u : Nat) :
    List (Int × α) → Except String Bool
  | [] => .ok true
  | (j, w) :: rest =>
    match atN? d u with
    | none => .error "vector at"
    | some du =>
      if du ≠ L.infinity then
        match atI? d j with
        | none => .error "vector at"
        | some dj =>
          if dj > du + w then .ok false
          else relaxVertex L d u rest
      else relaxVertex L d u rest

/-- The outer loop of `allEdgesRelaxed` over all vertices (graph.hpp lines
213-221). -/
def relaxAll (L : NumLimits α) (d : List α) (G : Graph α) : List Nat → Except String Bool
  | [] => .ok true
  | u :: rest =>
    match atN? G.adjList u with
    | none => .error "vector at"
    | some edges =>
      match relaxVertex L d u edges with
      | .ok true => relaxAll L d G rest
      | r => r

/-- `allEdgesRelaxed(bestDistanceTo, G, source)` (graph.hpp lines 208-223):
first `bestDistanceTo.at(source) != 0` (throwing for an out-of-range source),
then the doubly nested relaxation check, which compares each source distance
against `infinity<T>()` (line 217). -/
def allEdgesRelaxed (L : NumLimits α) (d : List α) (G : Graph α) (source : Int) :
    Except String Bool :=
  match atI? d source with
  | none => .error "vector at"
  | some ds =>
    if ds ≠ 0 then .ok false
    else relaxAll L d G (List.range G.size)

/-- Modelled from the spec: the composite protocol of section 4.5 ("return
true iff isSubgraph(T, G) and isTreePlusIsolated(T, root) and
allEdgesRelaxed(pathLengthsFromRoot(T, root), G, root)").  The driver that
composes the four checkers is not part of `src/`; the fuel is passed through
to the distance traversal. -/
def verifyShortestPathTree (L : NumLimits α) (G T : Graph α) (root : Int) (fuel : Nat) :
    Bool :=
  isSubgraph T G &&
    (match isTreePlusIsolated T root with
     | .ok b => b
     | .error _ => false) &&
    (match pathLengthsFromRoot L T fuel root with
     | .done d =>
       match allEdgesRelaxed L d G root with
       | .ok b => b
       | .error _ => false
     | _ => false)

/-- Reachability from `root` along the graph's directed edges. -/
inductive Reach (G : Graph α) (root : Int) : Int → Prop where
  | refl : Reach G root root
  | step {u v : Int} : Reach G root u → G.isEdge u v = true → Reach G root v

end CheckSP

namespace CheckSP

variable {α : Type} [LinearOrder α] [Add α] [OfNat α 0]

set_option linter.unusedSectionVars false

/-! Basic lemmas about the map and access helpers. -/

lemma atI?_eq_some {β : Type} {l : List β} {i : Int} {x : β} :
    atI? l i = some x ↔ 0 ≤ i ∧ ∃ h : i.toNat < l.length, l.get ⟨i.toNat, h⟩ = x := by
  unfold atI? atN?
  split
  · rename_i h0
    simp [List.getElem?_eq_some, h0, List.get_eq_getElem]
  · rename_i h0
    simp [h0]

lemma mapFind?_eq_none_of_not_contains {m : List (Int × α)} {j : Int}
    (h : mapContains m j = false) : mapFind? m j = none := by
  unfold mapContains at h
  unfold mapFind?
  rw [List.any_eq_false] at h
  have : m.find? (fun p => decide (p.1 = j)) = none := by
    rw [List.find?_eq_none]
    exact h
  rw [this]
  rfl

lemma mapContains_insert_self {m : List (Int × α)} {j : Int} {w : α} :
    mapContains (mapInsert m j w) j = true := by
  unfold mapInsert
  split
  · assumption
  · unfold mapContains
    rw [List.any_append]
    simp [List.any_cons]

lemma mapFind?_insert_self {m : List (Int × α)} {j : Int} {w : α}
    (h : mapContains m j = false) : mapFind? (mapInsert m j w) j = some w := by
  unfold mapInsert
  rw [h]
  simp only [Bool.false_eq_true, if_false]
  unfold mapFind?
  rw [List.find?_append]
  have hn : m.find? (fun p => decide (p.1 = j)) = none := by
    rw [List.find?_eq_none]
    unfold mapContains at h
    rw [List.any_eq_false] at h
    exact h
  rw [hn]
  simp [List.find?_cons]

lemma getEdgeWeight_eq_of_atI? (G : Graph α) {i : Int} {m : List (Int × α)}
    (h : atI? G.adjList i = some m) (j : Int) :
    G.getEdgeWeight i j =
      match mapFind? m j with
      | some w => .ok w
      | none => .error "map at" := by
  unfold Graph.getEdgeWeight
  rw [h]

/-- C7 helper: the out-of-range guard of `addEdge` in propositional form. -/
lemma addEdge_guard (G : Graph α) (i j : Int) (w : α)
    (h : i < 0 ∨ (G.size : Int) ≤ i ∨ j < 0 ∨ (G.size : Int) ≤ j) :
    G.addEdge i j w = .error "invalid vertex number" := by
  unfold Graph.addEdge
  rw [if_pos h]

/-- C1 claim (amended): after `addEdge(i, j, w)` with in-range indices the
edge exists, and its weight is `w` when the edge was absent but the old
weight when the edge already existed (`unordered_map::insert` does not
overwrite: first write wins). -/
theorem addEdge_first_write_wins (G : Graph α) (i j : Int) (w : α)
    (hi : 0 ≤ i ∧ i < (G.size : Int)) (hj : 0 ≤ j ∧ j < (G.size : Int)) :
    ∃ G', G.addEdge i j w = .ok G' ∧ G'.isEdge i j = true ∧
      G'.getEdgeWeight i j = (if G.isEdge i j then G.getEdgeWeight i j else .ok w) := by
  have hguard : ¬(i < 0 ∨ (G.size : Int) ≤ i ∨ j < 0 ∨ (G.size : Int) ≤ j) := by
    push_neg
    exact ⟨hi.1, hi.2, hj.1, hj.2⟩
  have hlen : i.toNat < G.adjList.length := by
    have := hi.2
    unfold Graph.size at this
    omega
  refine ⟨⟨G.adjList.set i.toNat (mapInsert (G.adjList.getD i.toNat []) j w)⟩, ?_, ?_, ?_⟩
  · unfold Graph.addEdge
    rw [if_neg hguard]
  · -- the new graph has the edge
    unfold Graph.isEdge
    have hsz : (⟨G.adjList.set i.toNat (mapInsert (G.adjList.getD i.toNat []) j w)⟩ :
        Graph α).size = G.size := by
      unfold Graph.size
      simp
    rw [if_pos (by rw [hsz]; exact ⟨hi.1, hi.2, hj.1, hj.2⟩)]
    show mapContains (((G.adjList.set i.toNat _).getD i.toNat [])) j = true
    rw [List.getD_eq_getElem _ _ (by simpa using hlen)]
    rw [List.getElem_set_self (by simpa using hlen)]
    exact mapContains_insert_self
  · -- the stored weight: old when present, new when absent
    have hatI : atI? (G.adjList.set i.toNat
        (mapInsert (G.adjList.getD i.toNat []) j w)) i =
        some (mapInsert (G.adjList.getD i.toNat []) j w) := by
      rw [atI?_eq_some]
      refine ⟨hi.1, by simpa using hlen, ?_⟩
      simp only [List.get_eq_getElem]
      exact List.getElem_set_self (by simpa using hlen)
    have hatIG : atI? G.adjList i = some (G.adjList.getD i.toNat []) := by
      rw [atI?_eq_some]
      refine ⟨hi.1, hlen, ?_⟩
      rw [List.getD_eq_getElem _ _ hlen]
      simp [List.get_eq_getElem]
    have hie : G.isEdge i j = mapContains (G.adjList.getD i.toNat []) j := by
      unfold Graph.isEdge
      rw [if_pos ⟨hi.1, hi.2, hj.1, hj.2⟩]
    rw [getEdgeWeight_eq_of_atI? _ hatI j, getEdgeWeight_eq_of_atI? _ hatIG j, hie]
    cases hc : mapContains (G.adjList.getD i.toNat []) j with
    | false =>
      rw [mapFind?_insert_self hc, mapFind?_eq_none_of_not_contains hc]
      simp
    | true =>
      have hsame : mapInsert (G.adjList.getD i.toNat []) j w = G.adjList.getD i.toNat [] := by
        unfold mapInsert
        rw [hc]
        rfl
      rw [hsame]
      simp

/-- C1 witness: the amended claim at a concrete input. -/
theorem addEdge_first_write_wins_witness :
    ∃ G', (mkGraph Int 2).addEdge 0 1 5 = .ok G' ∧ G'.isEdge 0 1 = true ∧
      G'.getEdgeWeight 0 1 =
        (if (mkGraph Int 2).isEdge 0 1 then (mkGraph Int 2).getEdgeWeight 0 1
         else .ok 5) :=
  addEdge_first_write_wins (mkGraph Int 2) 0 1 5 (by decide) (by decide)

/-- C1 counterexample: adding an edge that already exists does not overwrite
its weight; after `addEdge(0,1,5); addEdge(0,1,7)` the stored weight is still
5, not 7, so "last write wins" fails. -/
theorem addEdge_overwrite_cex :
    (((mkGraph Int 2).addEdge 0 1 5).bind (fun g => g.addEdge 0 1 7)).bind
        (fun g => g.getEdgeWeight 0 1) = .ok 5 ∧ (5 : Int) ≠ 7 := by
  constructor
  · rfl
  · decide

/-- C7 claim: `addEdge` with any out-of-range index signals the
distinguishable out-of-range error `"invalid vertex number"` and never
produces a graph (so the adjacency structure of the receiver is unchanged). -/
theorem addEdge_out_of_range (G : Graph α) (i j : Int) (w : α)
    (h : i < 0 ∨ (G.size : Int) ≤ i ∨ j < 0 ∨ (G.size : Int) ≤ j) :
    G.addEdge i j w = .error "invalid vertex number" ∧
      ∀ G', G.addEdge i j w ≠ .ok G' := by
  refine ⟨addEdge_guard G i j w h, ?_⟩
  intro G' hcontra
  rw [addEdge_guard G i j w h] at hcontra
  exact Except.noConfusion hcontra

/-- C7 witness: the out-of-range error at a concrete input. -/
theorem addEdge_out_of_range_witness :
    (mkGraph Int 3).addEdge 3 0 1 = .error "invalid vertex number" ∧
      ∀ G', (mkGraph Int 3).addEdge 3 0 1 ≠ .ok G' :=
  addEdge_out_of_range (mkGraph Int 3) 3 0 1 (by decide)

/-- C10 claim: `isTreePlusIsolated` on an out-of-range root signals the
out-of-range error (from `marked.at(root)`) and never returns a boolean
verdict. -/
theorem isTreePlusIsolated_root_out_of_range (G : Graph α) (root : Int)
    (h : root < 0 ∨ (G.size : Int) ≤ root) :
    isTreePlusIsolated G root = .error "vector at" ∧
      ∀ b, isTreePlusIsolated G root ≠ .ok b := by
  have hng : ¬(0 ≤ root ∧ root < (G.size : Int)) := by omega
  constructor
  · unfold isTreePlusIsolated
    rw [if_neg hng]
  · intro b hcontra
    unfold isTreePlusIsolated at hcontra
    rw [if_neg hng] at hcontra
    exact Except.noConfusion hcontra

/-- C10 witness: the error at concrete out-of-range roots, negative and too
large. -/
theorem isTreePlusIsolated_root_out_of_range_witness :
    isTreePlusIsolated (mkGraph Int 3) 5 = .error "vector at" ∧
      ∀ b, isTreePlusIsolated (mkGraph Int 3) 5 ≠ .ok b :=
  isTreePlusIsolated_root_out_of_range (mkGraph Int 3) 5 (by decide)

/-- C8 claim: when there is no edge from `i` to `j` (including out-of-range
`i`), `getEdgeWeight` signals a not-found error and never returns a weight. -/
theorem getEdgeWeight_missing (G : Graph α) (i j : Int) (hWF : G.WF)
    (h : G.isEdge i j = false) :
    (∃ e, G.getEdgeWeight i j = .error e) ∧ ∀ w, G.getEdgeWeight i j ≠ .ok w := by
  have main : ∃ e, G.getEdgeWeight i j = .error e := by
    cases hA : atI? G.adjList i with
    | none =>
      unfold Graph.getEdgeWeight
      rw [hA]
      exact ⟨_, rfl⟩
    | some m =>
      have hA' := hA
      rw [atI?_eq_some] at hA'
      obtain ⟨hi0, hlt, hget⟩ := hA'
      have hmem : m ∈ G.adjList := hget ▸ (List.get_mem _ _ hlt)
      have higood : 0 ≤ i ∧ i < (G.size : Int) := by
        unfold Graph.size
        omega
      have hgd : G.adjList.getD i.toNat [] = m := by
        rw [List.getD_eq_getElem _ _ hlt]
        rw [← hget]
        simp [List.get_eq_getElem]
      have hfind : mapFind? m j = none := by
        by_cases hjgood : 0 ≤ j ∧ j < (G.size : Int)
        · -- j in range: the map does not contain it
          have hcont : mapContains m j = false := by
            unfold Graph.isEdge at h
            rw [if_pos ⟨higood.1, higood.2, hjgood.1, hjgood.2⟩] at h
            rw [hgd] at h
            exact h
          exact mapFind?_eq_none_of_not_contains hcont
        · -- j out of range: well-formedness keeps all keys in range
          unfold mapFind?
          have hfn : List.find? (fun p => decide (p.1 = j)) m = none := by
            rw [List.find?_eq_none]
            intro p hp
            have hk := hWF m hmem p hp
            simp only [decide_eq_true_eq]
            intro hpj
            rw [hpj] at hk
            exact hjgood hk
          rw [hfn]
          rfl
      rw [getEdgeWeight_eq_of_atI? _ hA j, hfind]
      exact ⟨_, rfl⟩
  refine ⟨main, ?_⟩
  intro w hcontra
  obtain ⟨e, he⟩ := main
  rw [he] at hcontra
  exact Except.noConfusion hcontra

/-- C8 witness: a concrete graph with an edge `0 → 1` but queried at the
missing edge `1 → 0`, and at an out-of-range origin. -/
theorem getEdgeWeight_missing_witness :
    ((∃ e, (Graph.mk [[(1, 5)], []] : Graph Int).getEdgeWeight 1 0 = .error e) ∧
      ∀ w, (Graph.mk [[(1, 5)], []] : Graph Int).getEdgeWeight 1 0 ≠ .ok w) :=
  getEdgeWeight_missing (Graph.mk [[(1, 5)], []]) 1 0
    (by unfold Graph.WF Graph.size; decide) (by decide)

/-- C6 claim: `isSubgraph(H, G)` is false when `H` has more vertices than
`G`, and otherwise is true exactly when every edge of `H` appears in `G` with
an identical weight. -/
theorem isSubgraph_spec (H G : Graph α) :
    (H.size > G.size → isSubgraph H G = false) ∧
    (H.size ≤ G.size →
      (isSubgraph H G = true ↔
        ∀ v : Nat, v < H.size → ∀ p ∈ H.adjList.getD v [],
          G.isEdge (v : Int) p.1 = true ∧ G.getEdgeWeight (v : Int) p.1 = .ok p.2)) := by
  constructor
  · intro hgt
    unfold isSubgraph
    rw [if_pos hgt]
  · intro hle
    unfold isSubgraph
    rw [if_neg (by omega)]
    rw [List.all_eq_true]
    constructor
    · intro hall v hv p hp
      have := hall v (List.mem_range.mpr hv)
      rw [List.all_eq_true] at this
      have hep := this p hp
      unfold edgePresent at hep
      rw [Bool.and_eq_true] at hep
      refine ⟨hep.1, ?_⟩
      rcases hgw : G.getEdgeWeight (v : Int) p.1 with e | x
      · rw [hgw] at hep
        simp at hep
      · rw [hgw] at hep
        have := hep.2
        simp only [decide_eq_true_eq] at this
        rw [this]
  
    · intro hedges v hv
      rw [List.all_eq_true]
      intro p hp
      have := hedges v (List.mem_range.mp hv) p hp
      unfold edgePresent
      rw [Bool.and_eq_true]
      refine ⟨this.1, ?_⟩
      rw [this.2]
      simp

/-- C6 witness: the specification applied to the concrete pair with
`H = ({0,1}, {0 → 1 [5]})` and `G = ({0,1}, {0 → 1 [5], 1 → 0 [2]})`. -/
theorem isSubgraph_spec_witness :
    ((Graph.mk [[(1, 5)], []] : Graph Int).size >
        (Graph.mk [[(1, 5)], [(0, 2)]] : Graph Int).size →
      isSubgraph (Graph.mk [[(1, 5)], []]) (Graph.mk [[(1, 5)], [(0, 2)]]) = false) ∧
    ((Graph.mk [[(1, 5)], []] : Graph Int).size ≤
        (Graph.mk [[(1, 5)], [(0, 2)]] : Graph Int).size →
      (isSubgraph (Graph.mk [[(1, 5)], []]) (Graph.mk [[(1, 5)], [(0, 2)]]) = true ↔
        ∀ v : Nat, v < (Graph.mk [[(1, 5)], []] : Graph Int).size →
          ∀ p ∈ (Graph.mk [[(1, 5)], []] : Graph Int).adjList.getD v [],
            (Graph.mk [[(1, 5)], [(0, 2)]] : Graph Int).isEdge (v : Int) p.1 = true ∧
            (Graph.mk [[(1, 5)], [(0, 2)]] : Graph Int).getEdgeWeight (v : Int) p.1 =
              .ok p.2)) :=
  isSubgraph_spec (Graph.mk [[(1, 5)], []]) (Graph.mk [[(1, 5)], [(0, 2)]])


/-! Fuel monotonicity of the relaxing traversal: a completed run is stable
under more fuel, so its result is independent of the fuel bound chosen. -/

lemma pathBFS_mono {G : Graph α} :
    ∀ (f : Nat) {f' : Nat} (dist : List α) (q : List Nat) {d : List α}, f ≤ f' →
      pathBFS G f dist q = .done d → pathBFS G f' dist q = .done d := by
  intro f
  induction f with
  | zero =>
    intro f' dist q d hle h
    cases q with
    | nil =>
      simp only [pathBFS] at h ⊢
      exact h
    | cons u rest =>
      simp only [pathBFS] at h
      exact PathOut.noConfusion h
  | succ f ih =>
    intro f' dist q d hle h
    cases q with
    | nil =>
      simp only [pathBFS] at h ⊢
      exact h
    | cons u rest =>
      obtain ⟨f'', rfl⟩ : ∃ f'', f' = f'' + 1 := ⟨f' - 1, by omega⟩
      simp only [pathBFS] at h ⊢
      cases hA : atN? G.adjList u with
      | none =>
        rw [hA] at h
        simp at h
      | some edges =>
        rw [hA] at h
        have h2 : (match relaxEdges u edges dist [] with
            | none => PathOut.err
            | some (dist', pushed) => pathBFS G f dist' (rest ++ pushed)) =
            PathOut.done d := h
        show (match relaxEdges u edges dist [] with
            | none => PathOut.err
            | some (dist', pushed) => pathBFS G f'' dist' (rest ++ pushed)) =
            PathOut.done d
        cases hR : relaxEdges u edges dist [] with
        | none =>
          rw [hR] at h2
          simp at h2
        | some pr =>
          obtain ⟨dist', pushed⟩ := pr
          rw [hR] at h2
          exact ih _ _ (by omega) h2

lemma pathBFS_done_unique {G : Graph α} {f f' : Nat} {dist : List α} {q : List Nat}
    {d d' : List α} (h : pathBFS G f dist q = .done d)
    (h' : pathBFS G f' dist q = .done d') : d = d' := by
  rcases Nat.le_total f f' with hle | hle
  · have hmono := pathBFS_mono f dist q hle h
    exact PathOut.done.inj (hmono.symm.trans h')
  · have hmono := pathBFS_mono f' dist q hle h'
    exact (PathOut.done.inj (hmono.symm.trans h)).symm

/-- C4 claim: with a valid root, `isTreePlusIsolated` returns `false` when the
breadth-first traversal reaches an already-marked vertex; when the traversal
completes it returns the isolation verdict, which is `false` exactly when some
unmarked vertex has an outgoing edge and `true` otherwise; and on the
single-vertex graph with no edges and root 0 it returns `true`. -/
theorem isTreePlusIsolated_spec (G : Graph α) (root : Int)
    (hr : 0 ≤ root ∧ root < (G.size : Int)) :
    (treeBFS G (2 * G.size + 1) ((List.replicate G.size false).set root.toNat true)
        [root.toNat] = .revisit → isTreePlusIsolated G root = .ok false) ∧
    (∀ m, treeBFS G (2 * G.size + 1) ((List.replicate G.size false).set root.toNat true)
        [root.toNat] = .completed m →
      isTreePlusIsolated G root = .ok (isolatedOk G m) ∧
      (isolatedOk G m = false ↔ ∃ v : Nat, v < G.size ∧ m.getD v true = false ∧
        (G.adjList.getD v []).isEmpty = false)) ∧
    isTreePlusIsolated (mkGraph α 1) 0 = .ok true := by
  refine ⟨?_, ?_, ?_⟩
  · intro hB
    unfold isTreePlusIsolated
    rw [if_pos hr, hB]
  · intro m hB
    constructor
    · unfold isTreePlusIsolated
      rw [if_pos hr, hB]
    · unfold isolatedOk
      rw [Bool.eq_false_iff]
      simp only [ne_eq, List.all_eq_true, List.mem_range, not_forall]
      constructor
      · rintro ⟨v, hv, hbad⟩
        refine ⟨v, hv, ?_, ?_⟩
        · cases hgd : m.getD v true with
          | false => rfl
          | true => rw [hgd] at hbad; simp at hbad
        · cases hemp : (G.adjList.getD v []).isEmpty with
          | false => rfl
          | true => rw [hemp] at hbad; simp at hbad
      · rintro ⟨v, hv, hgd, hemp⟩
        exact ⟨v, hv, by rw [hgd, hemp]; simp⟩
  · unfold isTreePlusIsolated
    rw [if_pos (by unfold Graph.size mkGraph; simp)]
    rfl

/-- C4 witness: the characterisation applied to the concrete path graph
`0 → 1` with root 0 (its traversal completes with every vertex marked). -/
theorem isTreePlusIsolated_spec_witness :
    (treeBFS (Graph.mk [[(1, (1 : Int))], []]) (2 * (Graph.mk [[(1, (1 : Int))], []]).size + 1)
        ((List.replicate (Graph.mk [[(1, (1 : Int))], []]).size false).set (0 : Int).toNat true)
        [(0 : Int).toNat] = .revisit →
      isTreePlusIsolated (Graph.mk [[(1, (1 : Int))], []]) 0 = .ok false) ∧
    (∀ m, treeBFS (Graph.mk [[(1, (1 : Int))], []]) (2 * (Graph.mk [[(1, (1 : Int))], []]).size + 1)
        ((List.replicate (Graph.mk [[(1, (1 : Int))], []]).size false).set (0 : Int).toNat true)
        [(0 : Int).toNat] = .completed m →
      isTreePlusIsolated (Graph.mk [[(1, (1 : Int))], []]) 0 =
        .ok (isolatedOk (Graph.mk [[(1, (1 : Int))], []]) m) ∧
      (isolatedOk (Graph.mk [[(1, (1 : Int))], []]) m = false ↔
        ∃ v : Nat, v < (Graph.mk [[(1, (1 : Int))], []]).size ∧ m.getD v true = false ∧
          ((Graph.mk [[(1, (1 : Int))], []]).adjList.getD v []).isEmpty = false)) ∧
    isTreePlusIsolated (mkGraph Int 1) 0 = .ok true :=
  isTreePlusIsolated_spec (Graph.mk [[(1, (1 : Int))], []]) 0 (by decide)

/-- Scenario A graph `G`: 4 vertices, edges (0,1,1), (0,2,4), (1,2,2),
(1,3,5), (2,3,1). -/
def scenarioG : Graph Int := ⟨[[(1, 1), (2, 4)], [(2, 2), (3, 5)], [(3, 1)], []]⟩

/-- Scenario A tree `T`: 4 vertices, edges (0,1,1), (1,2,2), (2,3,1). -/
def scenarioT : Graph Int := ⟨[[(1, 1)], [(2, 2)], [(3, 1)], []]⟩

/-- C5 claim: the end-to-end scenario A.  Building the graphs through
`addEdge` yields `scenarioG` and `scenarioT`; the subgraph, tree-shape and
relaxation checks all pass, the distance vector is `[0, 1, 3, 4]` (at every
sufficient fuel, and no other vector at any fuel), and the composite
verification succeeds. -/
theorem scenarioA_end_to_end :
    (((((mkGraph Int 4).addEdge 0 1 1).bind (fun g => g.addEdge 0 2 4)).bind
        (fun g => g.addEdge 1 2 2)).bind (fun g => g.addEdge 1 3 5)).bind
      (fun g => g.addEdge 2 3 1) = .ok scenarioG ∧
    (((mkGraph Int 4).addEdge 0 1 1).bind (fun g => g.addEdge 1 2 2)).bind
      (fun g => g.addEdge 2 3 1) = .ok scenarioT ∧
    isSubgraph scenarioT scenarioG = true ∧
    isTreePlusIsolated scenarioT 0 = .ok true ∧
    pathLengthsFromRoot intLimits scenarioT 9 0 = .done [0, 1, 3, 4] ∧
    (∀ fuel d, pathLengthsFromRoot intLimits scenarioT fuel 0 = .done d →
      d = [0, 1, 3, 4]) ∧
    allEdgesRelaxed intLimits [0, 1, 3, 4] scenarioG 0 = .ok true ∧
    verifyShortestPathTree intLimits scenarioG scenarioT 0 9 = true := by
  refine ⟨rfl, rfl, rfl, rfl, rfl, ?_, rfl, rfl⟩
  intro fuel d h
  unfold pathLengthsFromRoot at h
  rw [if_pos (by decide)] at h
  have h9 : pathBFS scenarioT 9
      ((List.replicate scenarioT.size intLimits.nmax).set (0 : Int).toNat 0)
      [(0 : Int).toNat] = .done [0, 1, 3, 4] := rfl
  exact pathBFS_done_unique h h9


/-! Step equations for the relaxing traversal, phrased against the checked
accesses so that proofs can rewrite with them directly. -/

lemma relaxEdges_nil {u : Nat} {dist : List α} {p : List Nat} :
    relaxEdges u ([] : List (Int × α)) dist p = some (dist, p) := rfl

lemma relaxEdges_cons_some {u : Nat} {j : Int} {w : α} {rest : List (Int × α)}
    {dist : List α} {p : List Nat} {du dj : α}
    (hdu : atN? dist u = some du) (hdj : atI? dist j = some dj) :
    relaxEdges u ((j, w) :: rest) dist p =
      if dj > du + w then
        relaxEdges u rest (dist.set j.toNat (du + w)) (p ++ [j.toNat])
      else relaxEdges u rest dist p := by
  simp only [relaxEdges]
  rw [hdu, hdj]

lemma relaxEdges_cons_noneU {u : Nat} {j : Int} {w : α} {rest : List (Int × α)}
    {dist : List α} {p : List Nat} (hdu : atN? dist u = none) :
    relaxEdges u ((j, w) :: rest) dist p = none := by
  simp only [relaxEdges]
  rw [hdu]

lemma relaxEdges_cons_noneJ {u : Nat} {j : Int} {w : α} {rest : List (Int × α)}
    {dist : List α} {p : List Nat} {du : α}
    (hdu : atN? dist u = some du) (hdj : atI? dist j = none) :
    relaxEdges u ((j, w) :: rest) dist p = none := by
  simp only [relaxEdges]
  rw [hdu, hdj]

lemma atI?_set_ne {l : List α} {n : Nat} {x : α} {v : Int} (h : v ≠ (n : Int)) :
    atI? (l.set n x) v = atI? l v := by
  unfold atI? atN?
  split
  · rename_i h0
    rw [List.getElem?_set_ne (by omega)]
  · rfl

lemma isEdge_of_mem {G : Graph α} {u : Nat} {j : Int} {w : α} (huN : u < G.size)
    (hj0 : 0 ≤ j) (hjN : j < (G.size : Int))
    (hmem : (j, w) ∈ G.adjList.getD u []) :
    G.isEdge (u : Int) j = true := by
  unfold Graph.isEdge
  rw [if_pos ⟨Int.natCast_nonneg u, by omega, hj0, hjN⟩]
  rw [Int.toNat_natCast]
  unfold mapContains
  rw [List.any_eq_true]
  exact ⟨(j, w), hmem, by simp⟩

/-- If an edge-relaxation pass over the outgoing edges of a reachable vertex
completes, the distance list keeps its length, every pushed vertex is
in-range and reachable, and the distance of every unreachable vertex is
untouched. -/
lemma relaxEdges_preserve {G : Graph α} {root : Int} {u : Nat}
    (huN : u < G.size) (hu : Reach G root (u : Int)) :
    ∀ (edges : List (Int × α)), (∀ pr ∈ edges, pr ∈ G.adjList.getD u []) →
      ∀ (dist : List α) (p : List Nat) (out : List α × List Nat),
        dist.length = G.size →
        (∀ x ∈ p, x < G.size ∧ Reach G root (x : Int)) →
        relaxEdges u edges dist p = some out →
        out.1.length = G.size ∧
        (∀ x ∈ out.2, x < G.size ∧ Reach G root (x : Int)) ∧
        (∀ v : Int, ¬Reach G root v → atI? out.1 v = atI? dist v) := by
  intro edges
  induction edges with
  | nil =>
    intro _ dist p out hlen hp hrel
    rw [relaxEdges_nil] at hrel
    injection hrel with hout
    rw [← hout]
    exact ⟨hlen, hp, fun v _ => rfl⟩
  | cons pr rest ih =>
    intro hsub dist p out hlen hp hrel
    obtain ⟨j, w⟩ := pr
    cases hdu : atN? dist u with
    | none => rw [relaxEdges_cons_noneU hdu] at hrel; exact Option.noConfusion hrel
    | some du =>
      cases hdj : atI? dist j with
      | none => rw [relaxEdges_cons_noneJ hdu hdj] at hrel; exact Option.noConfusion hrel
      | some dj =>
        rw [relaxEdges_cons_some hdu hdj] at hrel
        have hj : 0 ≤ j ∧ j.toNat < dist.length := by
          have := hdj
          unfold atI? atN? at this
          split at this
          · rename_i h0
            exact ⟨h0, (List.getElem?_eq_some.mp this).1⟩
          · exact Option.noConfusion this
        have hjN : j < (G.size : Int) := by omega
        have hreachj : Reach G root j :=
          Reach.step hu (isEdge_of_mem huN hj.1 hjN (hsub (j, w) (List.mem_cons_self _ _)))
        by_cases hlt : dj > du + w
        · rw [if_pos hlt] at hrel
          have hres := ih (fun q hq => hsub q (List.mem_cons_of_mem _ hq))
            (dist.set j.toNat (du + w)) (p ++ [j.toNat]) out
            (by rw [List.length_set]; exact hlen)
            (by
              intro x hx
              rcases List.mem_append.mp hx with hx | hx
              · exact hp x hx
              · have hxj : x = j.toNat := List.mem_singleton.mp hx
                refine ⟨by omega, ?_⟩
                rw [hxj]
                rw [Int.toNat_of_nonneg hj.1]
                exact hreachj)
            hrel
          refine ⟨hres.1, hres.2.1, ?_⟩
          intro v hv
          rw [hres.2.2 v hv]
          apply atI?_set_ne
          intro hvj
          apply hv
          rw [hvj, Int.toNat_of_nonneg hj.1]
          exact hreachj
        · rw [if_neg hlt] at hrel
          exact ih (fun q hq => hsub q (List.mem_cons_of_mem _ hq)) dist p out hlen hp hrel

/-- A completed relaxing traversal started from a queue of reachable vertices
never changes the distance of an unreachable vertex. -/
lemma pathBFS_unreach {G : Graph α} {root : Int} :
    ∀ (fuel : Nat) (dist : List α) (q : List Nat) (d : List α),
      dist.length = G.size →
      (∀ x ∈ q, x < G.size ∧ Reach G root (x : Int)) →
      pathBFS G fuel dist q = .done d →
      ∀ v : Int, ¬Reach G root v → atI? d v = atI? dist v := by
  intro fuel
  induction fuel with
  | zero =>
    intro dist q d hlen hq h
    cases q with
    | nil =>
      simp only [pathBFS] at h
      injection h with hh
      rw [hh]
      exact fun v _ => rfl
    | cons u rest =>
      simp only [pathBFS] at h
      exact PathOut.noConfusion h
  | succ fuel ih =>
    intro dist q d hlen hq h
    cases q with
    | nil =>
      simp only [pathBFS] at h
      injection h with hh
      rw [hh]
      exact fun v _ => rfl
    | cons u rest =>
      have hu := hq u (List.mem_cons_self _ _)
      simp only [pathBFS] at h
      cases hA : atN? G.adjList u with
      | none =>
        rw [hA] at h
        simp at h
      | some edges =>
        rw [hA] at h
        have hedges : G.adjList.getD u [] = edges := by
          unfold atN? at hA
          rw [List.getD_eq_getElem?_getD, hA]
          rfl
        have h2 : (match relaxEdges u edges dist [] with
            | none => PathOut.err
            | some (dist', pushed) => pathBFS G fuel dist' (rest ++ pushed)) =
            PathOut.done d := h
        cases hR : relaxEdges u edges dist [] with
        | none =>
          rw [hR] at h2
          simp at h2
        | some out =>
          obtain ⟨dist', pushed⟩ := out
          rw [hR] at h2
          have hpres := relaxEdges_preserve hu.1 hu.2 edges
            (fun pr hpr => hedges ▸ hpr) dist [] (dist', pushed) hlen
            (fun x hx => absurd hx (List.not_mem_nil x)) hR
          intro v hv
          rw [ih dist' (rest ++ pushed) d hpres.1
            (by
              intro x hx
              rcases List.mem_append.mp hx with hx | hx
              · exact hq x (List.mem_cons_of_mem _ hx)
              · exact hpres.2.1 x hx)
            h2 v hv]
          exact hpres.2.2 v hv

lemma noEdge_mkGraph (N : Nat) (i j : Int) : (mkGraph α N).isEdge i j = false := by
  unfold Graph.isEdge
  split
  · show mapContains ((mkGraph α N).adjList.getD i.toNat []) j = false
    unfold mkGraph
    have hgd : (List.replicate N ([] : List (Int × α))).getD i.toNat [] = [] := by
      rw [List.getD_eq_getElem?_getD, List.getElem?_replicate]
      split <;> rfl
    rw [hgd]
    rfl
  · rfl

lemma reach_mkGraph {N : Nat} {root v : Int} (h : Reach (mkGraph α N) root v) :
    v = root := by
  induction h with
  | refl => rfl
  | step hr he ih => rw [noEdge_mkGraph] at he; exact Bool.noConfusion he


/-- Limits of a weight type that has a native infinity distinct from its
maximum representable value, as a floating-point type does (for `double`,
`numeric_limits::max()` is finite while `numeric_limits::infinity()` is a
distinct larger value). -/
def floatLimits : NumLimits Int := ⟨1000, true, 2000⟩

/-- C2 claim (amended): in a completed `pathLengthsFromRoot` traversal, every
vertex unreachable from the root keeps the initial value
`numeric_limits<T>::max()`; this equals the distinguished infinity exactly
when the type has no native infinity. -/
theorem pathLengths_unreached_max (L : NumLimits α) (G : Graph α) (root : Int)
    (hr : 0 ≤ root ∧ root < (G.size : Int)) (fuel : Nat) (d : List α)
    (h : pathLengthsFromRoot L G fuel root = .done d) :
    (∀ v : Int, 0 ≤ v → v < (G.size : Int) → ¬Reach G root v →
      atI? d v = some L.nmax) ∧
    (L.hasInf = false → L.infinity = L.nmax) := by
  constructor
  · intro v hv0 hvN hnr
    unfold pathLengthsFromRoot at h
    rw [if_pos hr] at h
    have hlen0 : ((List.replicate G.size L.nmax).set root.toNat 0).length = G.size := by
      rw [List.length_set, List.length_replicate]
    have hq0 : ∀ x ∈ [root.toNat], x < G.size ∧ Reach G root (x : Int) := by
      intro x hx
      have hxr : x = root.toNat := List.mem_singleton.mp hx
      subst hxr
      refine ⟨by omega, ?_⟩
      rw [Int.toNat_of_nonneg hr.1]
      exact Reach.refl
    have hpres := pathBFS_unreach fuel _ [root.toNat] d hlen0 hq0 h v hnr
    rw [hpres]
    have hvroot : v ≠ root := fun hc => hnr (hc ▸ Reach.refl)
    rw [atI?_set_ne (by
      intro hc
      exact hvroot (by rw [hc, Int.toNat_of_nonneg hr.1]))]
    unfold atI? atN?
    rw [if_pos hv0, List.getElem?_replicate, if_pos (by omega)]
  · intro h0
    unfold NumLimits.infinity
    rw [h0]
    rfl


/-- C2 witness: the amended claim applied to the edgeless 2-vertex graph with
root 0, whose completed traversal leaves vertex 1 at
`numeric_limits<int>::max()`. -/
theorem pathLengths_unreached_max_witness :
    atI? [0, 2147483647] 1 = some intLimits.nmax :=
  (pathLengths_unreached_max intLimits (mkGraph Int 2) 0 (by decide) 2
      [0, 2147483647] rfl).1 1 (by decide) (by decide)
    (fun h => absurd (reach_mkGraph h) (by decide))

/-- C2 counterexample: over a weight type with a native infinity (so that
`infinity<T>()` is not `numeric_limits<T>::max()`), the unreachable vertex 1
of the edgeless 2-vertex tree ends at the maximum value 1000, which is not
the distinguished infinity 2000 — the claim that unreachable vertices hold
the distinguished infinity fails. -/
theorem pathLengths_unreached_not_infinity_cex :
    pathLengthsFromRoot floatLimits (mkGraph Int 2) 2 0 = .done [0, 1000] ∧
    ¬Reach (mkGraph Int 2) 0 1 ∧
    atI? [(0 : Int), 1000] 1 = some 1000 ∧ (1000 : Int) ≠ floatLimits.infinity := by
  refine ⟨rfl, ?_, rfl, by decide⟩
  intro h
  exact absurd (reach_mkGraph h) (by decide)


/-! Characterisation of the relaxation certificate loops. -/

lemma atI?_natCast {β : Type} (l : List β) (u : Nat) : atI? l (u : Int) = atN? l u := by
  unfold atI?
  rw [if_pos (Int.natCast_nonneg u), Int.toNat_natCast]

lemma relaxVertex_nil {L : NumLimits α} {d : List α} {u : Nat} :
    relaxVertex L d u [] = .ok true := rfl

lemma relaxVertex_inf {L : NumLimits α} {d : List α} {u : Nat} {du : α}
    (hdu : atN? d u = some du) (hinf : du = L.infinity) :
    ∀ edges : List (Int × α), relaxVertex L d u edges = .ok true := by
  intro edges
  induction edges with
  | nil => rfl
  | cons pr rest ih =>
    obtain ⟨j, w⟩ := pr
    simp only [relaxVertex, hdu]
    rw [if_neg (by simp [hinf])]
    exact ih

/-- Outcome of the per-vertex relaxation loop when every target distance is
accessible: it returns `ok b`, and `b` is `true` exactly when every outgoing
edge is relaxed (vacuously when the vertex distance is `infinity<T>()`). -/
lemma relaxVertex_ok {L : NumLimits α} {d : List α} {u : Nat} {du : α}
    (hdu : atN? d u = some du) :
    ∀ edges : List (Int × α), (∀ pr ∈ edges, ∃ x, atI? d pr.1 = some x) →
      ∃ b, relaxVertex L d u edges = .ok b ∧
        (b = true ↔ ∀ pr ∈ edges, ∀ dj, atI? d pr.1 = some dj →
          du ≠ L.infinity → dj ≤ du + pr.2) := by
  intro edges
  induction edges with
  | nil =>
    intro _
    exact ⟨true, rfl, by simp⟩
  | cons pr rest ih =>
    intro hacc
    obtain ⟨j, w⟩ := pr
    obtain ⟨dj, hdj⟩ := hacc (j, w) (List.mem_cons_self _ _)
    by_cases hinf : du ≠ L.infinity
    · by_cases hlt : dj > du + w
      · refine ⟨false, ?_, ?_⟩
        · simp only [relaxVertex, hdu]
          rw [if_pos hinf, hdj]
          show (if dj > du + w then Except.ok false else relaxVertex L d u rest) =
            Except.ok false
          rw [if_pos hlt]
        · apply iff_of_false (by simp)
          intro hall
          have := hall (j, w) (List.mem_cons_self _ _) dj hdj hinf
          exact absurd this (not_le_of_gt hlt)
      · obtain ⟨b, hb, hiff⟩ := ih (fun q hq => hacc q (List.mem_cons_of_mem _ hq))
        refine ⟨b, ?_, ?_⟩
        · simp only [relaxVertex, hdu]
          rw [if_pos hinf, hdj]
          show (if dj > du + w then Except.ok false else relaxVertex L d u rest) =
            Except.ok b
          rw [if_neg hlt]
          exact hb
        · rw [hiff]
          constructor
          · intro hrest
            rw [List.forall_mem_cons]
            refine ⟨?_, hrest⟩
            intro dj' hdj' _
            have hdjeq : dj' = dj := by
              rw [hdj] at hdj'
              exact (Option.some.inj hdj').symm
            rw [hdjeq]
            exact le_of_not_lt hlt
          · intro hall pr hpr dj' hdj' hne
            exact hall pr (List.mem_cons_of_mem _ hpr) dj' hdj' hne
    · have hskip : relaxVertex L d u ((j, w) :: rest) = relaxVertex L d u rest := by
        simp only [relaxVertex, hdu]
        rw [if_neg hinf]
      obtain ⟨b, hb, hiff⟩ := ih (fun q hq => hacc q (List.mem_cons_of_mem _ hq))
      refine ⟨b, hskip ▸ hb, ?_⟩
      rw [hiff]
      constructor
      · intro hrest
        rw [List.forall_mem_cons]
        exact ⟨fun _ _ hne => absurd hne hinf, hrest⟩
      · intro hall pr hpr dj' hdj' hne
        exact hall pr (List.mem_cons_of_mem _ hpr) dj' hdj' hne

/-- Outcome of the outer relaxation loop over a list of in-range vertices of
a well-formed graph, with distances of the right length: it returns `ok b`
with `b` characterised edge by edge. -/
lemma relaxAll_ok {L : NumLimits α} {d : List α} {G : Graph α}
    (hWF : G.WF) (hlen : d.length = G.size) :
    ∀ vs : List Nat, (∀ u ∈ vs, u < G.size) →
      ∃ b, relaxAll L d G vs = .ok b ∧
        (b = true ↔ ∀ u ∈ vs, ∀ pr ∈ G.adjList.getD u [], ∀ du dj,
          atN? d u = some du → atI? d pr.1 = some dj →
          du ≠ L.infinity → dj ≤ du + pr.2) := by
  intro vs
  induction vs with
  | nil =>
    intro _
    exact ⟨true, rfl, by simp⟩
  | cons u rest ih =>
    intro hbound
    have huN : u < G.size := hbound u (List.mem_cons_self _ _)
    have hA : atN? G.adjList u = some (G.adjList.getD u []) := by
      unfold atN?
      rw [List.getD_eq_getElem?_getD]
      cases hcell : G.adjList[u]? with
      | none =>
        exfalso
        rw [List.getElem?_eq_none_iff] at hcell
        unfold Graph.size at huN
        omega
      | some cell => rfl
    have hcellmem : G.adjList.getD u [] ∈ G.adjList := by
      rw [List.getD_eq_getElem _ _ (by unfold Graph.size at huN; omega)]
      exact List.getElem_mem _
    have hdu : atN? d u = some (d.getD u 0) := by
      unfold atN?
      rw [List.getD_eq_getElem?_getD]
      cases hcell : d[u]? with
      | none =>
        exfalso
        rw [List.getElem?_eq_none_iff] at hcell
        omega
      | some x => rfl
    have hacc : ∀ pr ∈ G.adjList.getD u [], ∃ x, atI? d pr.1 = some x := by
      intro pr hpr
      have hk := hWF _ hcellmem pr hpr
      unfold atI? atN?
      rw [if_pos hk.1]
      cases hcell : d[pr.1.toNat]? with
      | none =>
        exfalso
        rw [List.getElem?_eq_none_iff] at hcell
        omega
      | some x => exact ⟨x, rfl⟩
    obtain ⟨b1, hb1, hiff1⟩ := relaxVertex_ok hdu (G.adjList.getD u []) hacc
    obtain ⟨b, hb, hiff⟩ := ih (fun x hx => hbound x (List.mem_cons_of_mem _ hx))
    cases b1 with
    | true =>
      refine ⟨b, ?_, ?_⟩
      · simp only [relaxAll, hA]
        rw [hb1]
        exact hb
      · rw [hiff]
        constructor
        · intro hrest
          rw [List.forall_mem_cons]
          refine ⟨?_, hrest⟩
          intro pr hpr du dj hdu' hdj' hne
          have hdueq : du = d.getD u 0 := by
            rw [hdu] at hdu'
            exact (Option.some.inj hdu').symm
          subst hdueq
          exact hiff1.mp rfl pr hpr dj hdj' hne
        · intro hall x hx pr hpr du dj h1 h2 h3
          exact hall x (List.mem_cons_of_mem _ hx) pr hpr du dj h1 h2 h3
    | false =>
      refine ⟨false, ?_, ?_⟩
      · simp only [relaxAll, hA]
        rw [hb1]
      · apply iff_of_false (by simp)
        intro hall
        have hvertex : ∀ pr ∈ G.adjList.getD u [], ∀ dj, atI? d pr.1 = some dj →
            d.getD u 0 ≠ L.infinity → dj ≤ d.getD u 0 + pr.2 := by
          intro pr hpr dj h1 h2
          exact hall u (List.mem_cons_self _ _) pr hpr (d.getD u 0) dj hdu h1 h2
        have := hiff1.mpr hvertex
        exact Bool.noConfusion this


/-- C3 claim (amended): for a well-formed graph, a valid source and a
distance vector of the right length with distance 0 at the source,
`allEdgesRelaxed` returns a boolean which is true iff every edge `(u, v, w)`
whose origin distance is not `infinity<T>()` satisfies `d[v] <= d[u] + w`
(edges from infinity-distance origins impose no constraint); and when the
weight type has no native infinity (so `infinity<T>()` equals
`numeric_limits<T>::max()`), edges leaving vertices unreached by the tree
behind `pathLengthsFromRoot` never cause the check to fail.  (Without that
proviso the second part is false, see the counterexample.) -/
theorem allEdgesRelaxed_spec (L : NumLimits α) (G : Graph α) (d : List α) (source : Int)
    (hWF : G.WF) (hs : 0 ≤ source ∧ source < (G.size : Int)) (hlen : d.length = G.size)
    (h0 : atI? d source = some 0) :
    (∃ b, allEdgesRelaxed L d G source = .ok b ∧
      (b = true ↔ ∀ u : Nat, u < G.size → ∀ pr ∈ G.adjList.getD u [], ∀ du dj,
        atN? d u = some du → atI? d pr.1 = some dj →
        du ≠ L.infinity → dj ≤ du + pr.2)) ∧
    (∀ root fuel, L.hasInf = false → 0 ≤ root → root < (G.size : Int) →
      pathLengthsFromRoot L G fuel root = .done d →
      ∀ u : Nat, u < G.size → ¬Reach G root (u : Int) →
      ∀ edges, atN? G.adjList u = some edges →
        relaxVertex L d u edges = .ok true) := by
  constructor
  · obtain ⟨b, hb, hiff⟩ := @relaxAll_ok α _ _ _ L d G hWF hlen (List.range G.size)
      (fun u hu => List.mem_range.mp hu)
    refine ⟨b, ?_, ?_⟩
    · unfold allEdgesRelaxed
      rw [h0]
      show (if (0 : α) ≠ 0 then Except.ok false else relaxAll L d G (List.range G.size)) =
        Except.ok b
      rw [if_neg (by simp)]
      exact hb
    · rw [hiff]
      simp only [List.mem_range]
  · intro root fuel hnoInf hr0 hrN hdone u huN hunreach edges hedges
    have hmax := (pathLengths_unreached_max L G root ⟨hr0, hrN⟩ fuel d hdone).1
      (u : Int) (Int.natCast_nonneg u) (by omega) hunreach
    rw [atI?_natCast] at hmax
    apply relaxVertex_inf hmax
    unfold NumLimits.infinity
    rw [hnoInf]
    simp

/-- C3 witness: the characterisation applied to scenario A, extracting both
the certified verdict and one concrete relaxation inequality from it. -/
theorem allEdgesRelaxed_spec_witness :
    allEdgesRelaxed intLimits [0, 1, 3, 4] scenarioG 0 = .ok true ∧ (4 : Int) ≤ 3 + 1 := by
  obtain ⟨⟨b, hb, hiff⟩, -⟩ := allEdgesRelaxed_spec intLimits scenarioG [0, 1, 3, 4] 0
    (by unfold Graph.WF Graph.size scenarioG; decide) (by decide) rfl rfl
  have hbt : b = true := Except.ok.inj
    (hb.symm.trans (rfl : allEdgesRelaxed intLimits [0, 1, 3, 4] scenarioG 0 = .ok true))
  refine ⟨hbt ▸ hb, ?_⟩
  have hall := hiff.mp hbt
  exact hall 2 (by decide) (3, 1) (by unfold scenarioG; decide) 3 4 rfl rfl (by decide)

/-- C3 counterexample: over a weight type with a native infinity, the
relaxation check fails on a graph whose only edge leaves a vertex unreached
by the tree, contradicting the claim that such edges never cause the check to
fail.  The tree is the edgeless 3-vertex graph (a valid subgraph and tree
shape), its distance vector is `[0, 1000, 1000]` with vertices 1, 2 unreached
at `numeric_limits::max() = 1000 ≠ infinity = 2000`, and the single edge
`(1, 2, -1000)` of `G` makes the check return false. -/
theorem allEdgesRelaxed_unreached_edge_cex :
    (mkGraph Int 3).addEdge 1 2 (-1000) = .ok (Graph.mk [[], [(2, -1000)], []]) ∧
    isSubgraph (mkGraph Int 3) (Graph.mk [[], [(2, -1000)], []]) = true ∧
    isTreePlusIsolated (mkGraph Int 3) 0 = .ok true ∧
    pathLengthsFromRoot floatLimits (mkGraph Int 3) 2 0 = .done [0, 1000, 1000] ∧
    ¬Reach (mkGraph Int 3) 0 1 ∧
    allEdgesRelaxed floatLimits [0, 1000, 1000] (Graph.mk [[], [(2, -1000)], []]) 0 =
      .ok false := by
  refine ⟨rfl, rfl, rfl, rfl, ?_, rfl⟩
  intro h
  exact absurd (reach_mkGraph h) (by decide)


/-! Termination of the tree-shape traversal: every marking pass trades queue
growth against freshly marked vertices, so `2 * unmarked + queue length`
bounds the remaining iterations. -/

lemma markEdges_count :
    ∀ (edges : List (Int × α)) (m : List Bool) (p : List Nat) (m' : List Bool)
      (p' : List Nat), markEdges edges m p = .ok m' p' →
      m'.length = m.length ∧
      m'.count false + p'.length = m.count false + p.length := by
  intro edges
  induction edges with
  | nil =>
    intro m p m' p' h
    simp only [markEdges] at h
    injection h with h1 h2
    rw [h1, h2]
    exact ⟨rfl, rfl⟩
  | cons pr rest ih =>
    intro m p m' p' h
    obtain ⟨j, w⟩ := pr
    cases hat : atI? m j with
    | none =>
      simp only [markEdges, hat] at h
      exact MarkOut.noConfusion h
    | some b =>
      cases b with
      | true =>
        simp only [markEdges, hat] at h
        exact MarkOut.noConfusion h
      | false =>
        simp only [markEdges, hat] at h
        have hj := atI?_eq_some.mp hat
        obtain ⟨hj0, hjlt, hjget⟩ := hj
        have hres := ih (m.set j.toNat true) (p ++ [j.toNat]) m' p' h
        have hcount : (m.set j.toNat true).count false + 1 = m.count false := by
          rw [List.count_set _ _ _ _ hjlt]
          have hgetf : m[j.toNat] = false := by
            rw [← hjget]
            simp [List.get_eq_getElem]
          rw [hgetf]
          have hpos : 0 < m.count false := by
            have : m[j.toNat] ∈ m := List.getElem_mem hjlt
            rw [hgetf] at this
            exact List.count_pos_iff.mpr (by simpa using this)
          simp
          omega
        constructor
        · rw [hres.1, List.length_set]
        · have := hres.2
          rw [List.length_append] at this
          simp only [List.length_cons, List.length_nil] at this
          omega

lemma treeBFS_completes {G : Graph α} :
    ∀ (fuel : Nat) (m : List Bool) (q : List Nat),
      2 * m.count false + q.length < fuel →
      treeBFS G fuel m q ≠ .outOfFuel := by
  intro fuel
  induction fuel with
  | zero => intro m q h; omega
  | succ fuel ih =>
    intro m q h
    cases q with
    | nil =>
      simp only [treeBFS]
      intro hc
      exact TreeOut.noConfusion hc
    | cons u rest =>
      simp only [treeBFS]
      cases hA : atN? G.adjList u with
      | none =>
        intro hc
        exact TreeOut.noConfusion hc
      | some edges =>
        show (match markEdges edges m [] with
            | MarkOut.err => TreeOut.err
            | MarkOut.revisit => TreeOut.revisit
            | MarkOut.ok m' pushed => treeBFS G fuel m' (rest ++ pushed)) ≠
          TreeOut.outOfFuel
        cases hM : markEdges edges m [] with
        | err => intro hc; exact TreeOut.noConfusion hc
        | revisit => intro hc; exact TreeOut.noConfusion hc
        | ok m' pushed =>
          have hcnt := markEdges_count edges m [] m' pushed hM
          show treeBFS G fuel m' (rest ++ pushed) ≠ TreeOut.outOfFuel
          apply ih
          rw [List.length_append]
          have := hcnt.2
          simp only [List.length_nil] at this
          simp only [List.length_cons] at h
          omega


/-! Termination of the distance traversal for non-negative integer weights:
each push strictly decreases some distance, so `queue length + 2 * total
distance` bounds the remaining iterations.  (With a negative cycle no bound
exists; see the divergence counterexample.) -/

/-- Total of the non-negative parts of an integer distance vector. -/
def sumToNat (l : List Int) : Nat := (l.map Int.toNat).sum

lemma atN?_of_lt {β : Type} {l : List β} {n : Nat} (h : n < l.length) :
    atN? l n = some (l.getD n (l.get ⟨n, h⟩)) := by
  unfold atN?
  rw [List.getD_eq_getElem _ _ h, List.getElem?_eq_getElem h]

lemma atN?_getD {β : Type} {l : List β} {n : Nat} (d : β) (h : n < l.length) :
    atN? l n = some (l.getD n d) := by
  unfold atN?
  rw [List.getD_eq_getElem _ _ h, List.getElem?_eq_getElem h]

lemma atI?_getD {β : Type} {l : List β} {j : Int} (d : β) (h0 : 0 ≤ j)
    (h : j.toNat < l.length) : atI? l j = some (l.getD j.toNat d) := by
  unfold atI?
  rw [if_pos h0]
  exact atN?_getD d h

lemma sumToNat_set : ∀ (l : List Int) (n : Nat) (x : Int), n < l.length →
    sumToNat (l.set n x) + (l.getD n 0).toNat = sumToNat l + x.toNat := by
  intro l
  induction l with
  | nil => intro n x h; simp at h
  | cons a t ih =>
    intro n x h
    cases n with
    | zero =>
      simp only [List.set, sumToNat, List.map_cons, List.sum_cons, List.getD_cons_zero]
      omega
    | succ n =>
      have hrec := ih n x (by simpa using h)
      simp only [List.set, sumToNat, List.map_cons, List.sum_cons, List.getD_cons_succ]
      unfold sumToNat at hrec
      omega

/-- An edge-relaxation pass with non-negative weights and in-range targets
always completes, keeps distances non-negative, pushes only in-range
vertices, and pays one unit of total distance for every push. -/
lemma relaxEdges_measure :
    ∀ (edges : List (Int × Int)) (dist : List Int) (p : List Nat) (u : Nat),
      u < dist.length →
      (∀ x ∈ dist, 0 ≤ x) →
      (∀ pr ∈ edges, 0 ≤ pr.2 ∧ 0 ≤ pr.1 ∧ pr.1 < (dist.length : Int)) →
      (∀ x ∈ p, x < dist.length) →
      ∃ dist' p', relaxEdges u edges dist p = some (dist', p') ∧
        dist'.length = dist.length ∧
        (∀ x ∈ dist', 0 ≤ x) ∧
        (∀ x ∈ p', x < dist.length) ∧
        sumToNat dist' + p'.length ≤ sumToNat dist + p.length := by
  intro edges
  induction edges with
  | nil =>
    intro dist p u hu hnn hed hp
    exact ⟨dist, p, rfl, rfl, hnn, hp, le_refl _⟩
  | cons pr rest ih =>
    intro dist p u hu hnn hed hp
    obtain ⟨j, w⟩ := pr
    obtain ⟨hw0, hj0, hjN⟩ := hed (j, w) (List.mem_cons_self _ _)
    have hjlt : j.toNat < dist.length := by omega
    have hdu : atN? dist u = some (dist.getD u 0) := atN?_getD 0 hu
    have hdj : atI? dist j = some (dist.getD j.toNat 0) := atI?_getD 0 hj0 hjlt
    have hdu0 : 0 ≤ dist.getD u 0 := by
      rw [List.getD_eq_getElem _ _ hu]
      exact hnn _ (List.getElem_mem hu)
    have hdj0 : 0 ≤ dist.getD j.toNat 0 := by
      rw [List.getD_eq_getElem _ _ hjlt]
      exact hnn _ (List.getElem_mem hjlt)
    rw [relaxEdges_cons_some hdu hdj]
    by_cases hlt : dist.getD j.toNat 0 > dist.getD u 0 + w
    · rw [if_pos hlt]
      have hrest : ∀ pr ∈ rest, 0 ≤ pr.2 ∧ 0 ≤ pr.1 ∧
          pr.1 < ((dist.set j.toNat (dist.getD u 0 + w)).length : Int) := by
        intro q hq
        rw [List.length_set]
        exact hed q (List.mem_cons_of_mem _ hq)
      obtain ⟨dist', p', hrel, hlen', hnn', hp', hsum⟩ :=
        ih (dist.set j.toNat (dist.getD u 0 + w)) (p ++ [j.toNat]) u
          (by rw [List.length_set]; exact hu)
          (by
            intro x hx
            rcases List.mem_or_eq_of_mem_set hx with hx | hx
            · exact hnn x hx
            · rw [hx]; omega)
          hrest
          (by
            intro x hx
            rw [List.length_set]
            rcases List.mem_append.mp hx with hx | hx
            · exact hp x hx
            · rw [List.mem_singleton.mp hx]; exact hjlt)
      refine ⟨dist', p', hrel, ?_, hnn', ?_, ?_⟩
      · rw [hlen', List.length_set]
      · intro x hx
        have := hp' x hx
        rw [List.length_set] at this
        exact this
      · have hset := sumToNat_set dist j.toNat (dist.getD u 0 + w) hjlt
        have htn : (dist.getD u 0 + w).toNat < (dist.getD j.toNat 0).toNat := by omega
        rw [List.length_append] at hsum
        simp only [List.length_cons, List.length_nil] at hsum
        omega
    · rw [if_neg hlt]
      exact ih dist p u hu hnn (fun q hq => hed q (List.mem_cons_of_mem _ hq)) hp

/-- The distance traversal of `pathLengthsFromRoot` completes on every
well-formed graph whose edge weights are all non-negative, given fuel beyond
the measure. -/
lemma pathBFS_completes {G : Graph Int} (hWF : G.WF)
    (hw : ∀ m ∈ G.adjList, ∀ pr ∈ m, 0 ≤ pr.2) :
    ∀ (fuel : Nat) (dist : List Int) (q : List Nat),
      dist.length = G.size →
      (∀ x ∈ dist, 0 ≤ x) →
      (∀ x ∈ q, x < G.size) →
      q.length + 2 * sumToNat dist < fuel →
      ∃ d, pathBFS G fuel dist q = .done d := by
  intro fuel
  induction fuel with
  | zero =>
    intro dist q h1 h2 h3 h4
    omega
  | succ fuel ih =>
    intro dist q hlen hnn hq hm
    cases q with
    | nil => exact ⟨dist, by simp only [pathBFS]⟩
    | cons u rest =>
      have huN : u < G.size := hq u (List.mem_cons_self _ _)
      have huL : u < G.adjList.length := huN
      have hA : atN? G.adjList u = some (G.adjList.getD u []) := atN?_getD [] huL
      have hcellmem : G.adjList.getD u [] ∈ G.adjList := by
        rw [List.getD_eq_getElem _ _ huL]
        exact List.getElem_mem _
      have hedge : ∀ pr ∈ G.adjList.getD u [], 0 ≤ pr.2 ∧ 0 ≤ pr.1 ∧
          pr.1 < (dist.length : Int) := by
        intro pr hpr
        refine ⟨hw _ hcellmem pr hpr, (hWF _ hcellmem pr hpr).1, ?_⟩
        have := (hWF _ hcellmem pr hpr).2
        rw [hlen]
        exact this
      obtain ⟨dist', p', hrel, hlen', hnn', hp', hsum⟩ :=
        relaxEdges_measure (G.adjList.getD u []) dist [] u (by omega) hnn hedge
          (by intro x hx; exact absurd hx (List.not_mem_nil x))
      obtain ⟨d, hd⟩ := ih dist' (rest ++ p')
        (by rw [hlen', hlen])
        hnn'
        (by
          intro x hx
          rcases List.mem_append.mp hx with hx | hx
          · exact hq x (List.mem_cons_of_mem _ hx)
          · have := hp' x hx
            omega)
        (by
          rw [List.length_append]
          simp only [List.length_nil, Nat.add_zero] at hsum
          simp only [List.length_cons] at hm
          omega)
      refine ⟨d, ?_⟩
      simp only [pathBFS, hA, hrel]
      exact hd


lemma negLoop_diverges :
    ∀ (fuel : Nat) (x : Int),
      pathBFS (Graph.mk [[(0, -1)]] : Graph Int) fuel [x] [0] = .outOfFuel := by
  intro fuel
  induction fuel with
  | zero => intro x; rfl
  | succ fuel ih =>
    intro x
    have hA : atN? (Graph.mk [[(0, -1)]] : Graph Int).adjList 0 = some [(0, -1)] := rfl
    have hrel : relaxEdges 0 [((0 : Int), (-1 : Int))] [x] [] = some ([x + -1], [0]) := by
      rw [relaxEdges_cons_some (show atN? [x] 0 = some x from rfl)
        (show atI? [x] (0 : Int) = some x from rfl)]
      rw [if_pos (by omega)]
      rfl
    simp only [pathBFS, hA, hrel, List.nil_append]
    exact ih (x + -1)

/-- C9 counterexample: `pathLengthsFromRoot` does not terminate on every
graph it is given — on the one-vertex graph with the negative self-loop
`(0, 0, -1)`, built through `addEdge`, the relaxing loop improves the root's
distance forever, so no amount of fuel completes the traversal. -/
theorem pathLengths_negative_loop_diverges :
    (mkGraph Int 1).addEdge 0 0 (-1) = .ok (Graph.mk [[(0, -1)]]) ∧
    ¬∃ fuel d, pathLengthsFromRoot intLimits (Graph.mk [[(0, -1)]]) fuel 0 =
      .done d := by
  refine ⟨rfl, ?_⟩
  rintro ⟨fuel, d, h⟩
  unfold pathLengthsFromRoot at h
  rw [if_pos (by decide)] at h
  have hinit : ((List.replicate (Graph.mk [[(0, -1)]] : Graph Int).size
      intLimits.nmax).set (0 : Int).toNat 0) = [(0 : Int)] := rfl
  rw [hinit, show (0 : Int).toNat = 0 from rfl] at h
  rw [negLoop_diverges fuel 0] at h
  exact PathOut.noConfusion h

/-- C9 claim (amended): the checks terminate — the tree-shape traversal
always finishes within its `2 * size + 1` iteration bound, `isSubgraph`
and `allEdgesRelaxed` are total, and `pathLengthsFromRoot` terminates on
every well-formed graph all of whose edge weights are non-negative (in
particular on every validated tree with non-negative weights); with negative
weights it can diverge (see the negative-self-loop counterexample), so it
does not terminate on every graph. -/
theorem checkers_terminate :
    (∀ (G : Graph Int) (root : Int), 0 ≤ root → root < (G.size : Int) →
      treeBFS G (2 * G.size + 1)
        ((List.replicate G.size false).set root.toNat true) [root.toNat] ≠
        .outOfFuel) ∧
    (∀ H G : Graph Int, isSubgraph H G = true ∨ isSubgraph H G = false) ∧
    (∀ (L : NumLimits Int) (d : List Int) (G : Graph Int) (s : Int),
      (∃ b, allEdgesRelaxed L d G s = .ok b) ∨
      (∃ e, allEdgesRelaxed L d G s = .error e)) ∧
    (∀ G : Graph Int, G.WF → (∀ m ∈ G.adjList, ∀ pr ∈ m, 0 ≤ pr.2) →
      ∀ root : Int, 0 ≤ root → root < (G.size : Int) →
      ∀ L : NumLimits Int, 0 ≤ L.nmax →
      ∃ fuel d, pathLengthsFromRoot L G fuel root = .done d) := by
  refine ⟨?_, ?_, ?_, ?_⟩
  · intro G root h0 hN
    apply treeBFS_completes
    have hlt : root.toNat < G.size := by omega
    have hcnt : ((List.replicate G.size false).set root.toNat true).count false =
        G.size - 1 := by
      rw [List.count_set _ _ _ _ (by simpa using hlt)]
      simp [List.count_replicate, List.getElem_replicate]
    rw [hcnt]
    simp only [List.length_cons, List.length_nil]
    omega
  · intro H G
    cases isSubgraph H G with
    | true => exact Or.inl rfl
    | false => exact Or.inr rfl
  · intro L d G s
    cases h : allEdgesRelaxed L d G s with
    | ok b => exact Or.inl ⟨b, rfl⟩
    | error e => exact Or.inr ⟨e, rfl⟩
  · intro G hWF hw root h0 hN L hLpos
    have hlt : root.toNat < G.size := by omega
    have hinit := pathBFS_completes hWF hw
      (2 + 2 * sumToNat ((List.replicate G.size L.nmax).set root.toNat 0))
      ((List.replicate G.size L.nmax).set root.toNat 0) [root.toNat]
      (by rw [List.length_set, List.length_replicate])
      (by
        intro x hx
        rcases List.mem_or_eq_of_mem_set hx with hx | hx
        · rw [List.eq_of_mem_replicate hx]
          exact hLpos
        · rw [hx])
      (by
        intro x hx
        rw [List.mem_singleton.mp hx]
        exact hlt)
      (by simp)
    obtain ⟨d, hd⟩ := hinit
    refine ⟨2 + 2 * sumToNat ((List.replicate G.size L.nmax).set root.toNat 0), d, ?_⟩
    unfold pathLengthsFromRoot
    rw [if_pos ⟨h0, hN⟩]
    exact hd

/-- C9 witness: the termination statements at concrete inputs — the
singleton graph's tree traversal, scenario A's subgraph check, relaxation
check, and distance traversal. -/
theorem checkers_terminate_witness :
    (treeBFS (mkGraph Int 1) (2 * (mkGraph Int 1).size + 1)
        ((List.replicate (mkGraph Int 1).size false).set (0 : Int).toNat true)
        [(0 : Int).toNat] ≠ .outOfFuel) ∧
    (isSubgraph scenarioT scenarioG = true ∨ isSubgraph scenarioT scenarioG = false) ∧
    ((∃ b, allEdgesRelaxed intLimits [0, 1, 3, 4] scenarioG 0 = .ok b) ∨
      (∃ e, allEdgesRelaxed intLimits [0, 1, 3, 4] scenarioG 0 = .error e)) ∧
    (∃ fuel d, pathLengthsFromRoot intLimits scenarioT fuel 0 = .done d) :=
  ⟨checkers_terminate.1 (mkGraph Int 1) 0 (by decide) (by decide),
   checkers_terminate.2.1 scenarioT scenarioG,
   checkers_terminate.2.2.1 intLimits [0, 1, 3, 4] scenarioG 0,
   checkers_terminate.2.2.2 scenarioT (by unfold Graph.WF Graph.size scenarioT; decide)
     (by unfold scenarioT; decide) 0 (by decide) (by decide) intLimits (by decide)⟩

end CheckSP
